import Mathlib

/-!
Verification development for the stock/price synchronization scripts:
`seller.py` (marketplace A, Ozon) and `market.py` (marketplace B, Yandex Market).

The embedding translates the pure computational core of both files:
feed records, quantity normalization, the stock/price reconcilers
(`create_stocks`, `create_prices`), the price string normalizer
(`price_conversion`), the chunker (`divide`), the two paginators
(`get_offer_ids`, modelled with explicit fuel and an abstract server
function), and the orchestration in `main`.

Python conventions are embedded as follows: a raised exception is `none`
in an `Option`-returning function; the in-place mutation of the
`offer_ids` list (Python `list.remove`) is explicit state passing, every
reconciler returning the post-call value of `offer_ids` alongside its
result; `int(...)` on a string is `pyInt`; the feed records (dicts with
keys "Код", "Количество", "Цена") are the structure `Watch` with fields
`kod`, `kolichestvo`, `tsena`.
-/

set_option autoImplicit false

/-- A feed record: keys "Код" (identifier), "Количество" (raw quantity),
"Цена" (raw price) of the spreadsheet rows returned by `download_stock`. -/
structure Watch where
  kod : String
  kolichestvo : String
  tsena : String
deriving DecidableEq, Repr

/-- Digit-string parsing used by `pyInt`: all characters must be decimal
digits and there must be at least one. -/
def parseDigits (cs : List Char) : Option Nat :=
  match cs with
  | [] => none
  | _ =>
    if cs.all Char.isDigit then
      some (cs.foldl (fun a c => a * 10 + (c.toNat - 48)) 0)
    else none

/-- Python `int(...)` applied to a string: an optional sign followed by
decimal digits; anything else raises `ValueError` (here: `none`). -/
def pyInt (s : String) : Option Int :=
  match s.data with
  | [] => none
  | c :: cs =>
    if c = '-' then (parseDigits cs).map (fun n => -(n : Int))
    else if c = '+' then (parseDigits cs).map (fun n => (n : Int))
    else (parseDigits (c :: cs)).map (fun n => (n : Int))

/-- The quantity rule table inlined in both `create_stocks` bodies:
`">10"` maps to 100, `"1"` maps to 0, anything else goes through
`int(...)`. -/
def normalizeCount (s : String) : Option Int :=
  if s = ">10" then some 100
  else if s = "1" then some 0
  else pyInt s

/-- seller.price_conversion: `re.sub("[^0-9]", "", price.split(".")[0])` —
keep the part before the first decimal point, then drop every non-digit
character.  Total: it never raises. -/
def price_conversion (price : String) : String :=
  ⟨(price.data.takeWhile (fun c => c != '.')).filter Char.isDigit⟩

/-- Marketplace A stock payload element: `{"offer_id": ..., "stock": ...}`. -/
structure StockEntry where
  offer_id : String
  stock : Int
deriving DecidableEq, Repr

/-- Marketplace A price payload element (seller.create_prices). -/
structure SellerPrice where
  auto_action_enabled : String
  currency_code : String
  offer_id : String
  old_price : String
  price : String
deriving DecidableEq, Repr

/-- First loop of seller.create_stocks: for each feed record whose
identifier is in the working list, normalize the quantity, append an
entry, and remove the identifier (Python `list.remove`, i.e. first
occurrence — `List.erase`).  Returns the matched entries together with
the post-loop value of `offer_ids`. -/
def Seller.createStocksAux : List Watch → List String → Option (List StockEntry × List String)
  | [], ids => some ([], ids)
  | w :: ws, ids =>
    if w.kod ∈ ids then
      match normalizeCount w.kolichestvo with
      | none => none
      | some st =>
        match Seller.createStocksAux ws (ids.erase w.kod) with
        | none => none
        | some (rest, fin) => some (⟨w.kod, st⟩ :: rest, fin)
    else Seller.createStocksAux ws ids

/-- seller.create_stocks: matched entries first, then a zero stub for
every identifier still in the working list.  The second component is the
value of `offer_ids` after the call (the stub loop does not change it). -/
def Seller.create_stocks (feed : List Watch) (offer_ids : List String) :
    Option (List StockEntry × List String) :=
  (Seller.createStocksAux feed offer_ids).map
    (fun p => (p.1 ++ p.2.map (fun i => ⟨i, 0⟩), p.2))

/-- seller.create_prices: for each feed record whose identifier is in
`offer_ids`, emit a price payload element.  The membership list is read
but never mutated; the state component returned is threaded unchanged,
mirroring that the body contains no mutating call. -/
def Seller.create_prices : List Watch → List String → List SellerPrice × List String
  | [], ids => ([], ids)
  | w :: ws, ids =>
    if w.kod ∈ ids then
      let r := Seller.create_prices ws ids
      (⟨"UNKNOWN", "RUB", w.kod, "0", price_conversion w.tsena⟩ :: r.1, r.2)
    else Seller.create_prices ws ids

/-- Marketplace B stock payload item (`items` element of a sku record):
`{"count": ..., "type": "FIT", "updatedAt": ...}`. -/
structure MarketStockItem where
  count : Int
  type : String
  updatedAt : String
deriving DecidableEq, Repr

/-- Marketplace B stock payload element:
`{"sku": ..., "warehouseId": ..., "items": [...]}`. -/
structure MarketStock where
  sku : String
  warehouseId : String
  items : List MarketStockItem
deriving DecidableEq, Repr

/-- Marketplace B price value object: `{"value": ..., "currencyId": "RUR"}`. -/
structure MarketPriceVal where
  value : Int
  currencyId : String
deriving DecidableEq, Repr

/-- Marketplace B price payload element: `{"id": ..., "price": {...}}`. -/
structure MarketPrice where
  id : String
  price : MarketPriceVal
deriving DecidableEq, Repr

/-- First loop of market.create_stocks.  `date` is the value of
`str(datetime.datetime.utcnow().replace(microsecond=0).isoformat() + "Z")`
computed once at the start of the call: the clock reading is an explicit
input of the embedding. -/
def Market.createStocksAux (date warehouse_id : String) :
    List Watch → List String → Option (List MarketStock × List String)
  | [], ids => some ([], ids)
  | w :: ws, ids =>
    if w.kod ∈ ids then
      match normalizeCount w.kolichestvo with
      | none => none
      | some st =>
        match Market.createStocksAux date warehouse_id ws (ids.erase w.kod) with
        | none => none
        | some (rest, fin) =>
          some (⟨w.kod, warehouse_id, [⟨st, "FIT", date⟩]⟩ :: rest, fin)
    else Market.createStocksAux date warehouse_id ws ids

/-- market.create_stocks: matched entries first, then a zero stub (with
the same timestamp) for every identifier still in the working list. -/
def Market.create_stocks (date : String) (feed : List Watch)
    (offer_ids : List String) (warehouse_id : String) :
    Option (List MarketStock × List String) :=
  (Market.createStocksAux date warehouse_id feed offer_ids).map
    (fun p => (p.1 ++ p.2.map (fun i => ⟨i, warehouse_id, [⟨0, "FIT", date⟩]⟩), p.2))

/-- market.create_prices: membership check against `offer_ids` (never
mutated, state threaded unchanged), price via
`int(price_conversion(...))` which raises (`none`) when no digits
remain. -/
def Market.create_prices : List Watch → List String → Option (List MarketPrice × List String)
  | [], ids => some ([], ids)
  | w :: ws, ids =>
    if w.kod ∈ ids then
      match pyInt (price_conversion w.tsena) with
      | none => none
      | some v =>
        match Market.create_prices ws ids with
        | none => none
        | some (rest, fin) => some (⟨w.kod, ⟨v, "RUR"⟩⟩ :: rest, fin)
    else Market.create_prices ws ids

/-- Chunk loop of seller.divide for a positive chunk size `m + 1`:
`for i in range(0, len(lst), n): yield lst[i : i + n]`.  The `fuel`
argument makes the recursion structural; `divide` passes the list's
length, which is always enough (each step consumes at least one
element). -/
def divideGo {α : Type} : Nat → Nat → List α → List (List α)
  | _, _, [] => []
  | 0, _, _ :: _ => []
  | fuel + 1, m, x :: xs => (x :: xs.take m) :: divideGo fuel m (xs.drop m)

/-- seller.divide.  `range(0, len(lst), n)` raises `ValueError` when
`n = 0` (here: `none`); for negative `n` the range is empty, so the
generator silently yields nothing; for positive `n` it yields the
successive slices of length `n` (last one possibly shorter). -/
def divide {α : Type} (lst : List α) (n : Int) : Option (List (List α)) :=
  if n = 0 then none
  else if n < 0 then some []
  else some (divideGo lst.length (n.toNat - 1) lst)

/-- The nested `offer` object of a marketplace B catalog entry. -/
structure MarketOffer where
  shopSku : String
deriving DecidableEq, Repr

/-- A marketplace B catalog entry (`offerMappingEntries` element). -/
structure MarketProduct where
  offer : MarketOffer
deriving DecidableEq, Repr

/-- The `paging` object of a marketplace B catalog page; `none` models an
absent `nextPageToken` key (`dict.get` returns `None`). -/
structure MarketPaging where
  nextPageToken : Option String
deriving DecidableEq, Repr

/-- A well-formed marketplace B catalog page response. -/
structure MarketPage where
  offerMappingEntries : List MarketProduct
  paging : MarketPaging
deriving DecidableEq, Repr

/-- Python falsiness of the continuation token (`if not page`): true for
an absent token and for the empty string. -/
def tokDone (o : Option String) : Bool :=
  match o with
  | none => true
  | some t => t == ""

/-- The token the loop feeds into the next request: the page's
`nextPageToken`, with an absent token read as `""` (the loop never feeds
it forward in that case, because it stops first). -/
def nextTok (p : MarketPage) : String :=
  match p.paging.nextPageToken with
  | none => ""
  | some t => t

/-- Pagination loop of market.get_offer_ids over an abstract server
(request token to page response), with fuel bounding the number of
requests; `none` means the loop has not terminated within `fuel`
requests. -/
def Market.getOfferIdsAux (server : String → MarketPage) :
    Nat → String → List MarketProduct → Option (List MarketProduct)
  | 0, _, _ => none
  | fuel + 1, page, acc =>
    let p := server page
    let acc2 := acc ++ p.offerMappingEntries
    if tokDone p.paging.nextPageToken then some acc2
    else Market.getOfferIdsAux server fuel (nextTok p) acc2

/-- market.get_offer_ids: run the token-paginated loop from the empty
token, then extract `product["offer"]["shopSku"]` from each entry. -/
def Market.get_offer_ids (server : String → MarketPage) (fuel : Nat) :
    Option (List String) :=
  (Market.getOfferIdsAux server fuel "" []).map
    (List.map (fun p => p.offer.shopSku))

/-- The request token sent on the `n`-th request (counting from 0) when
the loop starts from token `t`. -/
def Market.tokF (server : String → MarketPage) (t : String) : Nat → String
  | 0 => t
  | n + 1 => Market.tokF server (nextTok (server t)) n

/-- Concatenated entries of pages `0 .. n` of the token-paginated
traversal starting from token `t`. -/
def Market.pagesFrom (server : String → MarketPage) (t : String) : Nat → List MarketProduct
  | 0 => (server t).offerMappingEntries
  | n + 1 => (server t).offerMappingEntries ++
      Market.pagesFrom server (nextTok (server t)) n

/-- A marketplace A catalog item (`items` element of a page). -/
structure SellerProduct where
  offer_id : String
deriving DecidableEq, Repr

/-- A well-formed marketplace A catalog page response:
`{items, total, last_id}`. -/
structure SellerPage where
  items : List SellerProduct
  total : Nat
  last_id : String
deriving DecidableEq, Repr

/-- Pagination loop of seller.get_offer_ids over an abstract server
(cursor to page response): extend the accumulator, then stop exactly
when the page's reported `total` equals the accumulated length. -/
def Seller.getOfferIdsAux (server : String → SellerPage) :
    Nat → String → List SellerProduct → Option (List SellerProduct)
  | 0, _, _ => none
  | fuel + 1, last_id, acc =>
    let p := server last_id
    let acc2 := acc ++ p.items
    if p.total = acc2.length then some acc2
    else Seller.getOfferIdsAux server fuel p.last_id acc2

/-- seller.get_offer_ids: run the counter-paginated loop from the empty
cursor, then extract `product["offer_id"]` from each item. -/
def Seller.get_offer_ids (server : String → SellerPage) (fuel : Nat) :
    Option (List String) :=
  (Seller.getOfferIdsAux server fuel "" []).map
    (List.map (fun p => p.offer_id))

/-- The cursor sent on the `n`-th request when the loop starts from
cursor `t`. -/
def Seller.curF (server : String → SellerPage) (t : String) : Nat → String
  | 0 => t
  | n + 1 => Seller.curF server (server t).last_id n

/-- Number of items on pages `0 .. n - 1` of the counter-paginated
traversal starting from cursor `t` (the accumulated count before the
`n`-th request). -/
def Seller.accF (server : String → SellerPage) (t : String) : Nat → Nat
  | 0 => 0
  | n + 1 => (server t).items.length + Seller.accF server (server t).last_id n

/-- Concatenated items of pages `0 .. n` of the counter-paginated
traversal starting from cursor `t`. -/
def Seller.pagesFrom (server : String → SellerPage) (t : String) : Nat → List SellerProduct
  | 0 => (server t).items
  | n + 1 => (server t).items ++ Seller.pagesFrom server (server t).last_id n

/-- The part of seller.main after the two fetches (lines 408-417),
as a function of the feed and of the fetched `offer_ids` list: build and
chunk the stock payloads (size 100), then build and chunk the price
payloads (size 900) from the SAME `offer_ids` list object, already
depleted in place by create_stocks.  Returns the batch sequences passed
to update_stocks and update_price. -/
def Seller.main_model (feed : List Watch) (offer_ids : List String) :
    Option (List (List StockEntry) × List (List SellerPrice)) :=
  match Seller.create_stocks feed offer_ids with
  | none => none
  | some (stocks, ids2) =>
    match divide stocks 100 with
    | none => none
    | some stockBatches =>
      match divide (Seller.create_prices feed ids2).1 900 with
      | none => none
      | some priceBatches => some (stockBatches, priceBatches)

/-- seller.upload_prices (lines 352-356) after its fetch: chunk size is
1000 there, unlike the 900 used in seller.main. -/
def Seller.upload_prices_model (feed : List Watch) (offer_ids : List String) :
    Option (List (List SellerPrice)) :=
  divide (Seller.create_prices feed offer_ids).1 1000

/-- market.upload_prices after its fetch: price payloads chunked by 500. -/
def Market.upload_prices_model (feed : List Watch) (offer_ids : List String) :
    Option (List (List MarketPrice)) :=
  match Market.create_prices feed offer_ids with
  | none => none
  | some (prices, _) => divide prices 500

/-- market.upload_stocks / the stock half of market.main after the
fetch: stock payloads chunked by 2000. -/
def Market.stock_batches_model (date : String) (feed : List Watch)
    (offer_ids : List String) (warehouse_id : String) :
    Option (List (List MarketStock)) :=
  match Market.create_stocks date feed offer_ids warehouse_id with
  | none => none
  | some (stocks, _) => divide stocks 2000

/-- One HTTP update request issued by market.main. -/
inductive MarketCall where
  | stockUpdate (campaign : String) (batch : List MarketStock)
  | priceUpdate (campaign : String) (batch : List MarketPrice)
deriving DecidableEq, Repr

/-- market.main (lines 355-372) as the ordered sequence of update
requests it issues, as a function of the feed, the two fetched identifier
lists and the warehouse ids.  For each campaign it dispatches the stock
batches; the call `upload_prices(...)` on lines 363 and 372 creates a
coroutine object that is never awaited, so under Python semantics the
body of upload_prices does not run and no price request is issued. -/
def Market.main_model (date : String) (feed : List Watch)
    (fbs_ids dbs_ids : List String) (wid_fbs wid_dbs : String) :
    Option (List MarketCall) :=
  match Market.stock_batches_model date feed fbs_ids wid_fbs with
  | none => none
  | some sbF =>
    match Market.stock_batches_model date feed dbs_ids wid_dbs with
    | none => none
    | some sbD =>
      some (sbF.map (MarketCall.stockUpdate "FBS") ++ sbD.map (MarketCall.stockUpdate "DBS"))

/-- Modelled from the claim wording (spec side of the refinement check
for the stock reconciler): each feed record whose identifier is in the
remote list — the ORIGINAL list, unchanged throughout — yields one entry
with the normalized quantity, in feed order. -/
def specMatched : List Watch → List String → Option (List StockEntry)
  | [], _ => some []
  | w :: ws, ids =>
    if w.kod ∈ ids then
      match normalizeCount w.kolichestvo with
      | none => none
      | some st =>
        match specMatched ws ids with
        | none => none
        | some rest => some (⟨w.kod, st⟩ :: rest)
    else specMatched ws ids

/-- Modelled from the claim wording: the full outer join — feed-matched
entries first in feed order, then one zero entry for every remote
identifier not matched by any feed record, in remote discovery order. -/
def specStocks (feed : List Watch) (ids : List String) : Option (List StockEntry) :=
  (specMatched feed ids).map
    (fun m => m ++ (ids.filter (fun i => feed.all (fun w => w.kod != i))).map
      (fun i => ⟨i, 0⟩))

/-- Modelled from the claim wording (spec side of the refinement check
for the marketplace B stock reconciler): one payload entry, with the
normalized quantity, per feed record whose identifier is in the ORIGINAL
remote list, unchanged throughout. -/
def specMatchedM (date wid : String) : List Watch → List String → Option (List MarketStock)
  | [], _ => some []
  | w :: ws, ids =>
    if w.kod ∈ ids then
      match normalizeCount w.kolichestvo with
      | none => none
      | some st =>
        match specMatchedM date wid ws ids with
        | none => none
        | some rest => some (⟨w.kod, wid, [⟨st, "FIT", date⟩]⟩ :: rest)
    else specMatchedM date wid ws ids

/-- Modelled from the claim wording: the full outer join in the
marketplace B payload shape — feed-matched entries first in feed order,
then one zero entry for every remote identifier not matched by any feed
record, in remote discovery order. -/
def specStocksM (date wid : String) (feed : List Watch) (ids : List String) :
    Option (List MarketStock) :=
  (specMatchedM date wid feed ids).map
    (fun m => m ++ (ids.filter (fun i => feed.all (fun w => w.kod != i))).map
      (fun i => ⟨i, wid, [⟨0, "FIT", date⟩]⟩))

/-- The clock-independent part of a marketplace B stock payload element:
everything except the `updatedAt` timestamps. -/
def MarketStock.stripTimes (m : MarketStock) : String × String × List (Int × String) :=
  (m.sku, m.warehouseId, m.items.map (fun it => (it.count, it.type)))

/-- Concrete token-pagination server used to witness C5: page "" holds
entry "a" and continues with token "p2"; page "p2" holds entry "b" and
ends (absent token). -/
def mserverW : String → MarketPage := fun t =>
  if t = "" then ⟨[⟨⟨"a"⟩⟩], ⟨some "p2"⟩⟩ else ⟨[⟨⟨"b"⟩⟩], ⟨none⟩⟩

/-- Concrete counter-pagination server used to witness C5 (terminating
case): page "" holds one item, reports total 2 and cursor "c"; page "c"
holds one item and reports total 2, reached after it. -/
def sserverW : String → SellerPage := fun t =>
  if t = "" then ⟨[⟨"x"⟩], 2, "c"⟩ else ⟨[⟨"y"⟩], 2, "d"⟩

/-- Concrete counter-pagination server used to witness C5
(non-terminating case): every page holds one item but reports total 0,
which the accumulated count never equals. -/
def sserverBadW : String → SellerPage := fun _ => ⟨[⟨"x"⟩], 0, "c"⟩

/-! Helper lemmas about the chunker. -/

theorem divideGo_nil {α : Type} (fuel m : Nat) : divideGo fuel m ([] : List α) = [] := by
  cases fuel <;> rfl

theorem divideGo_flatten {α : Type} :
    ∀ (fuel m : Nat) (l : List α), l.length ≤ fuel → (divideGo fuel m l).flatten = l := by
  intro fuel
  induction fuel with
  | zero =>
    intro m l hl
    have hnil : l = [] := List.eq_nil_of_length_eq_zero (Nat.le_zero.mp hl)
    subst hnil; rfl
  | succ f ih =>
    intro m l hl
    cases l with
    | nil => rfl
    | cons x xs =>
      simp only [divideGo, List.flatten_cons]
      rw [ih m (xs.drop m) (by rw [List.length_drop]; simp at hl; omega)]
      rw [List.cons_append, List.take_append_drop]

theorem divideGo_mem {α : Type} :
    ∀ (fuel m : Nat) (l : List α) (c : List α),
      c ∈ divideGo fuel m l → c.length ≤ m + 1 ∧ c ≠ [] := by
  intro fuel
  induction fuel with
  | zero => intro m l c hc; cases l <;> simp [divideGo] at hc
  | succ f ih =>
    intro m l c hc
    cases l with
    | nil => simp [divideGo] at hc
    | cons x xs =>
      simp only [divideGo, List.mem_cons] at hc
      rcases hc with rfl | hc
      · refine ⟨?_, by simp⟩
        simp only [List.length_cons, List.length_take]
        have := Nat.min_le_left m xs.length
        omega
      · exact ih m (xs.drop m) c hc

theorem divideGo_dropLast {α : Type} :
    ∀ (fuel m : Nat) (l : List α), l.length ≤ fuel →
      ∀ c ∈ (divideGo fuel m l).dropLast, c.length = m + 1 := by
  intro fuel
  induction fuel with
  | zero =>
    intro m l hl c hc
    have hnil : l = [] := List.eq_nil_of_length_eq_zero (Nat.le_zero.mp hl)
    subst hnil; simp [divideGo] at hc
  | succ f ih =>
    intro m l hl c hc
    cases l with
    | nil => simp [divideGo] at hc
    | cons x xs =>
      simp only [divideGo] at hc
      rcases hrest : divideGo f m (xs.drop m) with _ | ⟨r, rs⟩
      · rw [hrest] at hc
        simp [List.dropLast_single] at hc
      · rw [hrest, List.dropLast_cons₂, List.mem_cons] at hc
        rcases hc with rfl | hc
        · have hdrop : xs.drop m ≠ [] := by
            intro hd; rw [hd, divideGo_nil] at hrest; exact (List.cons_ne_nil r rs) hrest.symm
          have hlen : m < xs.length := by
            by_contra hle
            exact hdrop (List.drop_eq_nil_of_le (by omega))
          simp only [List.length_cons, List.length_take]
          omega
        · rw [← hrest] at hc
          refine ih m (xs.drop m) ?_ c hc
          rw [List.length_drop]; simp at hl; omega

theorem divide_pos_spec {α : Type} {lst : List α} {n : Int} (hn : 0 < n)
    {cs : List (List α)} (h : divide lst n = some cs) :
    cs.flatten = lst ∧ (∀ c ∈ cs, c.length ≤ n.toNat ∧ c ≠ []) ∧
    (∀ c ∈ cs.dropLast, c.length = n.toNat) := by
  rw [divide, if_neg (by omega), if_neg (by omega)] at h
  have hcs : cs = divideGo lst.length (n.toNat - 1) lst := by
    injection h with h2; exact h2.symm
  subst hcs
  refine ⟨divideGo_flatten _ _ _ le_rfl, ?_, ?_⟩
  · intro c hc
    have hm := divideGo_mem _ _ _ c hc
    exact ⟨by omega, hm.2⟩
  · intro c hc
    have hm := divideGo_dropLast _ _ _ le_rfl c hc
    omega

/-! Helper lemmas about pyInt and price_conversion. -/

theorem price_conversion_all_digits (s : String) :
    (price_conversion s).data.all Char.isDigit = true := by
  rw [List.all_eq_true]
  intro c hc
  exact List.of_mem_filter hc

theorem pyInt_digits (l : List Char) (h : l.all Char.isDigit = true) :
    pyInt ⟨l⟩ = none ↔ l = [] := by
  cases l with
  | nil => simp [pyInt]
  | cons c cs =>
    simp only [List.all_cons, Bool.and_eq_true] at h
    have hminus : ¬(c = '-') := by
      intro e; rw [e] at h; exact absurd h.1 (by decide)
    have hplus : ¬(c = '+') := by
      intro e; rw [e] at h; exact absurd h.1 (by decide)
    simp [pyInt, hminus, hplus, parseDigits, List.all_cons, h.1, h.2]

/-- C2: the quantity normalization used by create_stocks maps ">10" to
100 and "1" to 0; any other token goes through Python `int(...)`, so a
numeric string yields its parsed integer value and a token whose string
is not parseable as an integer raises (FormatError, embedded as `none`). -/
theorem C2_quantity_rule_table :
    normalizeCount ">10" = some 100 ∧
    normalizeCount "1" = some 0 ∧
    normalizeCount "37" = some 37 ∧
    (∀ s : String, s ≠ ">10" → s ≠ "1" → normalizeCount s = pyInt s) ∧
    pyInt "37" = some 37 ∧ pyInt "" = none ∧ pyInt "abc" = none := by
  refine ⟨by decide, by decide, by decide, ?_, by decide, by decide, by decide⟩
  intro s h1 h2
  simp [normalizeCount, h1, h2]

/-- Witness for C2 at the concrete token "37". -/
theorem C2_witness :
    ("37" : String) ≠ ">10" ∧ ("37" : String) ≠ "1" ∧ normalizeCount "37" = pyInt "37" :=
  ⟨by decide, by decide, C2_quantity_rule_table.2.2.2.1 "37" (by decide) (by decide)⟩

/-- C4 counterexample: on a price string with no digits before the first
decimal point, price_conversion does not fail — it returns the empty
string, and marketplace A's create_prices happily emits it as a price;
only marketplace B's create_prices fails, in its later `int(...)` call. -/
theorem C4_cex :
    price_conversion "руб." = "" ∧
    Seller.create_prices [⟨"1", "1", "руб."⟩] ["1"] =
      ([⟨"UNKNOWN", "RUB", "1", "0", ""⟩], ["1"]) ∧
    Market.create_prices [⟨"1", "1", "руб."⟩] ["1"] = none := by decide

/-- C4 (amended): price_conversion returns the string of digits of the
substring before the first decimal point and never fails; when no digits
remain it returns the empty string, and exactly then the downstream
integer conversion (used by marketplace B) fails. -/
theorem C4_price_conversion :
    price_conversion "5\x27990.00 руб." = "5990" ∧
    price_conversion "1\x27500.50 руб." = "1500" ∧
    pyInt (price_conversion "5\x27990.00 руб.") = some 5990 ∧
    (∀ s : String, (price_conversion s).data.all Char.isDigit = true) ∧
    (∀ s : String, pyInt (price_conversion s) = none ↔ price_conversion s = "") := by
  refine ⟨by decide, by decide, by decide, price_conversion_all_digits, ?_⟩
  intro s
  have h := pyInt_digits (price_conversion s).data (price_conversion_all_digits s)
  rw [String.ext_iff]
  exact h

/-! Helper lemmas about the stock reconciler's working list. -/

theorem Seller.createStocksAux_subset :
    ∀ (feed : List Watch) (ids : List String) (st : List StockEntry) (fin : List String),
      Seller.createStocksAux feed ids = some (st, fin) → fin ⊆ ids := by
  intro feed
  induction feed with
  | nil =>
    intro ids st fin h
    simp only [Seller.createStocksAux, Option.some.injEq, Prod.mk.injEq] at h
    rw [← h.2]
    exact fun x hx => hx
  | cons w ws ih =>
    intro ids st fin h
    by_cases hw : w.kod ∈ ids
    · rw [Seller.createStocksAux, if_pos hw] at h
      cases hnc : normalizeCount w.kolichestvo with
      | none => rw [hnc] at h; exact absurd h (by simp)
      | some stv =>
        rw [hnc] at h
        cases hr : Seller.createStocksAux ws (ids.erase w.kod) with
        | none => rw [hr] at h; exact absurd h (by simp)
        | some pr =>
          obtain ⟨rest, fin0⟩ := pr
          rw [hr] at h
          simp only [Option.some.injEq, Prod.mk.injEq] at h
          rw [← h.2]
          exact (ih (ids.erase w.kod) rest fin0 hr).trans (List.erase_subset _ _)
    · rw [Seller.createStocksAux, if_neg hw] at h
      exact ih ids st fin h

/-- C3 counterexample: on the spec's own example — feed
`[{id:"123", qty:"10"}]`, remote list `["123","124"]` — the working list
after create_stocks is `["124"]`, not empty: the stub pass iterates over
the remaining identifiers without removing them. -/
theorem C3_cex :
    Seller.create_stocks [⟨"123", "10", "p"⟩] ["123", "124"] =
      some ([⟨"123", 10⟩, ⟨"124", 0⟩], ["124"]) ∧
    (["124"] : List String) ≠ [] := by decide

theorem Seller.createStocksAux_fin :
    ∀ (feed : List Watch) (ids : List String) (st : List StockEntry) (fin : List String),
      ids.Nodup → Seller.createStocksAux feed ids = some (st, fin) →
      fin = ids.filter (fun i => feed.all (fun w => w.kod != i)) := by
  intro feed
  induction feed with
  | nil =>
    intro ids st fin _ h
    simp only [Seller.createStocksAux, Option.some.injEq, Prod.mk.injEq] at h
    rw [← h.2]
    simp [List.all_nil, List.filter_true]
  | cons w ws ih =>
    intro ids st fin hnd h
    by_cases hw : w.kod ∈ ids
    · rw [Seller.createStocksAux, if_pos hw] at h
      cases hnc : normalizeCount w.kolichestvo with
      | none => rw [hnc] at h; exact absurd h (by simp)
      | some stv =>
        rw [hnc] at h
        cases hr : Seller.createStocksAux ws (ids.erase w.kod) with
        | none => rw [hr] at h; exact absurd h (by simp)
        | some pr =>
          obtain ⟨rest, fin0⟩ := pr
          rw [hr] at h
          simp only [Option.some.injEq, Prod.mk.injEq] at h
          rw [← h.2]
          rw [ih (ids.erase w.kod) rest fin0 (hnd.erase w.kod) hr,
            hnd.erase_eq_filter w.kod, List.filter_filter]
          refine List.filter_congr ?_
          intro a _
          by_cases ha : a = w.kod
          · simp [ha, List.all_cons]
          · have h1 : (a == w.kod) = false := beq_eq_false_iff_ne.mpr ha
            have h2 : (w.kod == a) = false := beq_eq_false_iff_ne.mpr (Ne.symm ha)
            simp [List.all_cons, bne, h1, h2, Bool.and_comm]
    · rw [Seller.createStocksAux, if_neg hw] at h
      rw [ih ids st fin hnd h]
      refine List.filter_congr ?_
      intro a ha
      have hne : w.kod ≠ a := fun he => hw (he ▸ ha)
      simp [List.all_cons, bne, hne]

/-- C3 (amended): provided the remote working list has no duplicate
identifiers, after create_stocks returns the working list is exactly the
remote identifiers not matched by any feed record, in remote discovery
order — each matched identifier is removed as it is consumed, the stub
pass removes nothing, and the surviving identifiers are precisely the
ones that received zero stubs.  In particular the working list is NOT
emptied: for feed [{id:"123", qty:"10"}] and remote ["123","124"] it
equals ["124"] afterwards.  (With a duplicated identifier in the working
list even a matched identifier survives, since only its first occurrence
is removed.) -/
theorem C3_working_list_after (feed : List Watch) (ids : List String)
    (out : List StockEntry) (fin : List String) (hnd : ids.Nodup)
    (h : Seller.create_stocks feed ids = some (out, fin)) :
    fin = ids.filter (fun i => feed.all (fun w => w.kod != i)) ∧
    (∃ matched, out = matched ++ fin.map (fun i => ⟨i, 0⟩)) := by
  rw [Seller.create_stocks] at h
  cases haux : Seller.createStocksAux feed ids with
  | none => rw [haux] at h; exact absurd h (by simp)
  | some pr =>
    obtain ⟨st0, fin0⟩ := pr
    rw [haux] at h
    simp only [Option.map_some', Option.some.injEq, Prod.mk.injEq] at h
    obtain ⟨hout, hfin⟩ := h
    subst hfin
    exact ⟨Seller.createStocksAux_fin feed ids st0 fin0 hnd haux, ⟨st0, hout.symm⟩⟩

/-- Witness for C3 on the spec's own example. -/
theorem C3_witness :
    (["124"] : List String) =
      (["123", "124"] : List String).filter
        (fun i => [(⟨"123", "10", "p"⟩ : Watch)].all (fun w => w.kod != i)) ∧
    (∃ matched, [(⟨"123", 10⟩ : StockEntry), ⟨"124", 0⟩] =
      matched ++ (["124"] : List String).map (fun i => ⟨i, 0⟩)) :=
  C3_working_list_after [⟨"123", "10", "p"⟩] ["123", "124"]
    [⟨"123", 10⟩, ⟨"124", 0⟩] ["124"] (by decide) (by decide)

/-- C8 counterexample: for the negative size -1 the chunker does not
fail — Python `range(0, len, -1)` is empty, so the generator silently
yields nothing and `list(divide(lst, -1))` is `[]`; only size 0 raises. -/
theorem C8_cex :
    divide [1, 2, 3] (-1 : Int) = some [] ∧
    divide [1, 2, 3] (-1 : Int) ≠ none := by decide

/-- C8 (amended): the chunker fails (ValueError from `range`, embedded as
`none`) exactly for size 0; for every negative size it succeeds with no
chunks at all; for every positive size it yields an order-preserving
partition into non-empty chunks of the given size, with only the final
chunk allowed to be shorter. -/
theorem C8_divide_spec {α : Type} (lst : List α) (n : Int) :
    (n = 0 → divide lst n = none) ∧
    (n < 0 → divide lst n = some []) ∧
    (0 < n → ∃ cs, divide lst n = some cs ∧ cs.flatten = lst ∧
      (∀ c ∈ cs, c ≠ [] ∧ (c.length : Int) ≤ n) ∧
      ∀ c ∈ cs.dropLast, (c.length : Int) = n) := by
  refine ⟨?_, ?_, ?_⟩
  · intro h; simp [divide, h]
  · intro h; rw [divide, if_neg (by omega), if_pos h]
  · intro h
    have hsome : divide lst n = some (divideGo lst.length (n.toNat - 1) lst) := by
      rw [divide, if_neg (by omega), if_neg (by omega)]
    obtain ⟨hflat, hmem, hlast⟩ := divide_pos_spec h hsome
    refine ⟨_, hsome, hflat, ?_, ?_⟩
    · intro c hc
      obtain ⟨h1, h2⟩ := hmem c hc
      exact ⟨h2, by omega⟩
    · intro c hc
      have := hlast c hc
      omega

/-- Witness for C8 at sizes 0, -1 and 2. -/
theorem C8_witness :
    divide ([1, 2, 3] : List Nat) (0 : Int) = none ∧
    divide ([1, 2, 3] : List Nat) (-1 : Int) = some [] ∧
    ∃ cs, divide ([1, 2, 3] : List Nat) (2 : Int) = some cs ∧ cs.flatten = [1, 2, 3] ∧
      (∀ c ∈ cs, c ≠ [] ∧ (c.length : Int) ≤ 2) ∧
      ∀ c ∈ cs.dropLast, (c.length : Int) = 2 :=
  ⟨(C8_divide_spec [1, 2, 3] 0).1 rfl,
   (C8_divide_spec [1, 2, 3] (-1)).2.1 (by omega),
   (C8_divide_spec [1, 2, 3] 2).2.2 (by omega)⟩

/-! Helper lemmas about the price builders. -/

theorem Seller.create_prices_state :
    ∀ (feed : List Watch) (ids : List String), (Seller.create_prices feed ids).2 = ids := by
  intro feed
  induction feed with
  | nil => intro ids; rfl
  | cons w ws ih =>
    intro ids
    by_cases hw : w.kod ∈ ids
    · rw [Seller.create_prices, if_pos hw]
      exact ih ids
    · rw [Seller.create_prices, if_neg hw]
      exact ih ids

theorem Seller.create_prices_from_feed :
    ∀ (feed : List Watch) (ids : List String) (e : SellerPrice),
      e ∈ (Seller.create_prices feed ids).1 → ∃ w ∈ feed, e.offer_id = w.kod ∧ w.kod ∈ ids := by
  intro feed
  induction feed with
  | nil => intro ids e he; exact absurd he (by simp [Seller.create_prices])
  | cons w ws ih =>
    intro ids e he
    by_cases hw : w.kod ∈ ids
    · rw [Seller.create_prices, if_pos hw] at he
      rcases List.mem_cons.mp he with rfl | he2
      · exact ⟨w, List.mem_cons_self w ws, rfl, hw⟩
      · obtain ⟨v, hv, he3⟩ := ih ids e he2
        exact ⟨v, List.mem_cons_of_mem w hv, he3⟩
    · rw [Seller.create_prices, if_neg hw] at he
      obtain ⟨v, hv, he3⟩ := ih ids e he
      exact ⟨v, List.mem_cons_of_mem w hv, he3⟩

theorem Market.create_prices_ids_fixed :
    ∀ (feed : List Watch) (ids : List String) (res : List MarketPrice × List String),
      Market.create_prices feed ids = some res → res.2 = ids := by
  intro feed
  induction feed with
  | nil =>
    intro ids res h
    simp only [Market.create_prices, Option.some.injEq] at h
    rw [← h]
  | cons w ws ih =>
    intro ids res h
    by_cases hw : w.kod ∈ ids
    · rw [Market.create_prices, if_pos hw] at h
      cases hp : pyInt (price_conversion w.tsena) with
      | none => rw [hp] at h; exact absurd h (by simp)
      | some v =>
        rw [hp] at h
        cases hr : Market.create_prices ws ids with
        | none => rw [hr] at h; exact absurd h (by simp)
        | some pr =>
          rw [hr] at h
          simp only [Option.some.injEq] at h
          rw [← h]
          exact ih ids pr hr
    · rw [Market.create_prices, if_neg hw] at h
      exact ih ids res h

theorem Market.create_prices_entries_feed :
    ∀ (feed : List Watch) (ids : List String) (res : List MarketPrice × List String),
      Market.create_prices feed ids = some res →
      ∀ e ∈ res.1, ∃ w ∈ feed, e.id = w.kod ∧ w.kod ∈ ids := by
  intro feed
  induction feed with
  | nil =>
    intro ids res h e he
    simp only [Market.create_prices, Option.some.injEq] at h
    rw [← h] at he
    exact absurd he (by simp)
  | cons w ws ih =>
    intro ids res h e he
    by_cases hw : w.kod ∈ ids
    · rw [Market.create_prices, if_pos hw] at h
      cases hp : pyInt (price_conversion w.tsena) with
      | none => rw [hp] at h; exact absurd h (by simp)
      | some v =>
        rw [hp] at h
        cases hr : Market.create_prices ws ids with
        | none => rw [hr] at h; exact absurd h (by simp)
        | some pr =>
          rw [hr] at h
          simp only [Option.some.injEq] at h
          rw [← h] at he
          rcases List.mem_cons.mp he with rfl | he2
          · exact ⟨w, List.mem_cons_self w ws, rfl, hw⟩
          · obtain ⟨v2, hv2, he3⟩ := ih ids pr hr e he2
            exact ⟨v2, List.mem_cons_of_mem w hv2, he3⟩
    · rw [Market.create_prices, if_neg hw] at h
      obtain ⟨v2, hv2, he3⟩ := ih ids res h e he
      exact ⟨v2, List.mem_cons_of_mem w hv2, he3⟩

/-- C7: the price builders do not mutate the identifier collection —
the working list after the call is the list passed in (so a second call
with the same inputs, even reusing the post-call list, yields the
identical output), and no entries are synthesized for remote-only
identifiers: every emitted entry carries the identifier of some feed
record that is present in the collection. -/
theorem C7_price_building_pure :
    (∀ (feed : List Watch) (ids : List String), (Seller.create_prices feed ids).2 = ids) ∧
    (∀ (feed : List Watch) (ids : List String),
      Seller.create_prices feed (Seller.create_prices feed ids).2 =
        Seller.create_prices feed ids) ∧
    (∀ (feed : List Watch) (ids : List String) (e : SellerPrice),
      e ∈ (Seller.create_prices feed ids).1 → ∃ w ∈ feed, e.offer_id = w.kod ∧ w.kod ∈ ids) ∧
    (∀ (feed : List Watch) (ids : List String) (res : List MarketPrice × List String),
      Market.create_prices feed ids = some res → res.2 = ids) ∧
    (∀ (feed : List Watch) (ids : List String) (res : List MarketPrice × List String),
      Market.create_prices feed ids = some res →
      ∀ e ∈ res.1, ∃ w ∈ feed, e.id = w.kod ∧ w.kod ∈ ids) := by
  refine ⟨Seller.create_prices_state, ?_, Seller.create_prices_from_feed,
    Market.create_prices_ids_fixed, Market.create_prices_entries_feed⟩
  intro feed ids
  rw [Seller.create_prices_state feed ids]

/-- Witness for C7 at a concrete feed and identifier list. -/
theorem C7_witness :
    (([⟨"1", ⟨5990, "RUR"⟩⟩], ["1", "2"]) : List MarketPrice × List String).2 = ["1", "2"] ∧
    ∀ e ∈ (([⟨"1", ⟨5990, "RUR"⟩⟩], ["1", "2"]) : List MarketPrice × List String).1,
      ∃ w ∈ [(⟨"1", "10", "5990"⟩ : Watch)], e.id = w.kod ∧ w.kod ∈ ["1", "2"] :=
  ⟨C7_price_building_pure.2.2.2.1 [⟨"1", "10", "5990"⟩] ["1", "2"]
      ([⟨"1", ⟨5990, "RUR"⟩⟩], ["1", "2"]) (by decide),
   C7_price_building_pure.2.2.2.2 [⟨"1", "10", "5990"⟩] ["1", "2"]
      ([⟨"1", ⟨5990, "RUR"⟩⟩], ["1", "2"]) (by decide)⟩

/-! Helper lemmas about the timestamp in marketplace B stock payloads. -/

theorem Market.createStocksAux_strip (d1 d2 wid : String) :
    ∀ (feed : List Watch) (ids : List String),
      (Market.createStocksAux d1 wid feed ids).map
          (fun r => (r.1.map MarketStock.stripTimes, r.2)) =
        (Market.createStocksAux d2 wid feed ids).map
          (fun r => (r.1.map MarketStock.stripTimes, r.2)) := by
  intro feed
  induction feed with
  | nil => intro ids; rfl
  | cons w ws ih =>
    intro ids
    by_cases hw : w.kod ∈ ids
    · rw [Market.createStocksAux, Market.createStocksAux, if_pos hw, if_pos hw]
      cases hnc : normalizeCount w.kolichestvo with
      | none => rfl
      | some st =>
        have hih := ih (ids.erase w.kod)
        cases h1 : Market.createStocksAux d1 wid ws (ids.erase w.kod) with
        | none =>
          cases h2 : Market.createStocksAux d2 wid ws (ids.erase w.kod) with
          | none => rfl
          | some p2 => rw [h1, h2] at hih; exact absurd hih (by simp)
        | some p1 =>
          cases h2 : Market.createStocksAux d2 wid ws (ids.erase w.kod) with
          | none => rw [h1, h2] at hih; exact absurd hih (by simp)
          | some p2 =>
            obtain ⟨rest1, fin1⟩ := p1
            obtain ⟨rest2, fin2⟩ := p2
            rw [h1, h2] at hih
            simp only [Option.map_some', Option.some.injEq, Prod.mk.injEq] at hih
            simp only [Option.map_some', Option.some.injEq, Prod.mk.injEq, List.map_cons]
            exact ⟨by rw [hih.1]; rfl, hih.2⟩
    · rw [Market.createStocksAux, Market.createStocksAux, if_neg hw, if_neg hw]
      exact ih ids

theorem Market.createStocksAux_updatedAt (d wid : String) :
    ∀ (feed : List Watch) (ids : List String) (res : List MarketStock × List String),
      Market.createStocksAux d wid feed ids = some res →
      ∀ e ∈ res.1, ∀ it ∈ e.items, it.updatedAt = d := by
  intro feed
  induction feed with
  | nil =>
    intro ids res h e he
    simp only [Market.createStocksAux, Option.some.injEq] at h
    rw [← h] at he
    exact absurd he (by simp)
  | cons w ws ih =>
    intro ids res h e he it hit
    by_cases hw : w.kod ∈ ids
    · rw [Market.createStocksAux, if_pos hw] at h
      cases hnc : normalizeCount w.kolichestvo with
      | none => rw [hnc] at h; exact absurd h (by simp)
      | some st =>
        rw [hnc] at h
        cases hr : Market.createStocksAux d wid ws (ids.erase w.kod) with
        | none => rw [hr] at h; exact absurd h (by simp)
        | some pr =>
          obtain ⟨rest, fin⟩ := pr
          rw [hr] at h
          simp only [Option.some.injEq] at h
          rw [← h] at he
          rcases List.mem_cons.mp he with rfl | he2
          · simp only [List.mem_singleton] at hit
            rw [hit]
          · exact ih (ids.erase w.kod) (rest, fin) hr e he2 it hit
    · rw [Market.createStocksAux, if_neg hw] at h
      exact ih ids res h e he it hit

/-- C9 counterexample: the same feed and remote catalog, at two different
clock readings, produce different marketplace B stock payloads — the
`updatedAt` field embeds the run's timestamp, so re-running a SyncRun
does not give byte-identical payloads. -/
theorem C9_cex :
    Market.create_stocks "2022-12-31T12:00:00Z" [⟨"123", "10", "p"⟩] ["123"] "w1" ≠
    Market.create_stocks "2023-01-01T00:00:00Z" [⟨"123", "10", "p"⟩] ["123"] "w1" := by
  decide

/-- C9 (amended): the payload builders are deterministic functions of
the feed, the remote catalog, the warehouse and the clock reading: two
runs differ at most in the `updatedAt` timestamps of marketplace B stock
entries — stripping the timestamps yields identical payloads for any two
clock readings, and every timestamp equals the run's clock reading.
(Marketplace A's builders take no clock input at all, so their outputs
depend on feed and catalog alone by construction.) -/
theorem C9_idempotence_up_to_timestamp :
    (∀ (d1 d2 wid : String) (feed : List Watch) (ids : List String),
      (Market.create_stocks d1 feed ids wid).map
          (fun r => (r.1.map MarketStock.stripTimes, r.2)) =
        (Market.create_stocks d2 feed ids wid).map
          (fun r => (r.1.map MarketStock.stripTimes, r.2))) ∧
    (∀ (d wid : String) (feed : List Watch) (ids : List String)
        (res : List MarketStock × List String),
      Market.create_stocks d feed ids wid = some res →
      ∀ e ∈ res.1, ∀ it ∈ e.items, it.updatedAt = d) := by
  constructor
  · intro d1 d2 wid feed ids
    have hih := Market.createStocksAux_strip d1 d2 wid feed ids
    rw [Market.create_stocks, Market.create_stocks]
    cases h1 : Market.createStocksAux d1 wid feed ids with
    | none =>
      cases h2 : Market.createStocksAux d2 wid feed ids with
      | none => rfl
      | some p2 => rw [h1, h2] at hih; exact absurd hih (by simp)
    | some p1 =>
      cases h2 : Market.createStocksAux d2 wid feed ids with
      | none => rw [h1, h2] at hih; exact absurd hih (by simp)
      | some p2 =>
        rw [h1, h2] at hih
        simp only [Option.map_some', Option.some.injEq, Prod.mk.injEq] at hih
        simp only [Option.map_some', Option.some.injEq, Prod.mk.injEq, List.map_append,
          List.map_map]
        refine ⟨?_, hih.2⟩
        rw [hih.1, hih.2]
        rfl
  · intro d wid feed ids res h e he it hit
    rw [Market.create_stocks] at h
    cases haux : Market.createStocksAux d wid feed ids with
    | none => rw [haux] at h; exact absurd h (by simp)
    | some pr =>
      obtain ⟨st0, fin0⟩ := pr
      rw [haux] at h
      simp only [Option.map_some', Option.some.injEq] at h
      rw [← h] at he
      rcases List.mem_append.mp he with he1 | he2
      · exact Market.createStocksAux_updatedAt d wid feed ids (st0, fin0) haux e he1 it hit
      · obtain ⟨i, hi, hei⟩ := List.mem_map.mp he2
        rw [← hei] at hit
        simp only [List.mem_singleton] at hit
        rw [hit]

/-- Witness for C9 at a concrete run. -/
theorem C9_witness :
    ∀ e ∈ (([⟨"123", "w1", [⟨10, "FIT", "T0"⟩]⟩], []) : List MarketStock × List String).1,
      ∀ it ∈ e.items, it.updatedAt = "T0" :=
  C9_idempotence_up_to_timestamp.2 "T0" "w1" [⟨"123", "10", "p"⟩] ["123"]
    ([⟨"123", "w1", [⟨10, "FIT", "T0"⟩]⟩], []) (by decide)

/-! Helper lemmas for the full-outer-join characterization. -/

theorem specMatched_congr :
    ∀ (ws : List Watch) (ids1 ids2 : List String),
      (∀ v ∈ ws, (v.kod ∈ ids1 ↔ v.kod ∈ ids2)) →
      specMatched ws ids1 = specMatched ws ids2 := by
  intro ws
  induction ws with
  | nil => intro ids1 ids2 _; rfl
  | cons v vs ih =>
    intro ids1 ids2 hiff
    have hv := hiff v (List.mem_cons_self v vs)
    have hrest := ih ids1 ids2 (fun u hu => hiff u (List.mem_cons_of_mem v hu))
    by_cases h1 : v.kod ∈ ids1
    · rw [specMatched, specMatched, if_pos h1, if_pos (hv.mp h1), hrest]
    · rw [specMatched, specMatched, if_neg h1, if_neg (fun h2 => h1 (hv.mpr h2)), hrest]

theorem Seller.createStocksAux_spec :
    ∀ (feed : List Watch) (ids : List String),
      (feed.map Watch.kod).Nodup → ids.Nodup →
      Seller.createStocksAux feed ids =
        (specMatched feed ids).map
          (fun m => (m, ids.filter (fun i => feed.all (fun w => w.kod != i)))) := by
  intro feed
  induction feed with
  | nil =>
    intro ids _ _
    simp only [Seller.createStocksAux, specMatched, Option.map_some', List.all_nil,
      List.filter_true]
  | cons w ws ih =>
    intro ids hfeed hids
    simp only [List.map_cons, List.nodup_cons, List.mem_map] at hfeed
    have hwkod : ∀ v ∈ ws, v.kod ≠ w.kod := by
      intro v hv he
      exact hfeed.1 ⟨v, hv, he⟩
    by_cases hw : w.kod ∈ ids
    · rw [Seller.createStocksAux, if_pos hw, specMatched, if_pos hw]
      cases hnc : normalizeCount w.kolichestvo with
      | none => rfl
      | some st =>
        have hrec := ih (ids.erase w.kod) hfeed.2 (hids.erase w.kod)
        have hsame : specMatched ws (ids.erase w.kod) = specMatched ws ids := by
          refine specMatched_congr ws (ids.erase w.kod) ids ?_
          intro v hv
          exact List.mem_erase_of_ne (hwkod v hv)
        have hfilter :
            (ids.erase w.kod).filter (fun i => ws.all (fun v => v.kod != i)) =
              ids.filter (fun i => (w :: ws).all (fun v => v.kod != i)) := by
          rw [hids.erase_eq_filter w.kod, List.filter_filter]
          refine List.filter_congr ?_
          intro a _
          by_cases ha : a = w.kod
          · simp [ha, List.all_cons]
          · have h1 : (a == w.kod) = false := beq_eq_false_iff_ne.mpr ha
            have h2 : (w.kod == a) = false := beq_eq_false_iff_ne.mpr (Ne.symm ha)
            simp [List.all_cons, bne, h1, h2, Bool.and_comm]
        rw [hrec, hsame, hfilter]
        cases hsm : specMatched ws ids with
        | none => rfl
        | some m => rfl
    · rw [Seller.createStocksAux, if_neg hw, specMatched, if_neg hw]
      have hrec := ih ids hfeed.2 hids
      have hfilter :
          ids.filter (fun i => ws.all (fun v => v.kod != i)) =
            ids.filter (fun i => (w :: ws).all (fun v => v.kod != i)) := by
        refine List.filter_congr ?_
        intro a ha
        have hne : w.kod ≠ a := fun he => hw (he ▸ ha)
        simp [List.all_cons, bne, hne]
      rw [hrec, hfilter]

theorem specMatchedM_congr (date wid : String) :
    ∀ (ws : List Watch) (ids1 ids2 : List String),
      (∀ v ∈ ws, (v.kod ∈ ids1 ↔ v.kod ∈ ids2)) →
      specMatchedM date wid ws ids1 = specMatchedM date wid ws ids2 := by
  intro ws
  induction ws with
  | nil => intro ids1 ids2 _; rfl
  | cons v vs ih =>
    intro ids1 ids2 hiff
    have hv := hiff v (List.mem_cons_self v vs)
    have hrest := ih ids1 ids2 (fun u hu => hiff u (List.mem_cons_of_mem v hu))
    by_cases h1 : v.kod ∈ ids1
    · rw [specMatchedM, specMatchedM, if_pos h1, if_pos (hv.mp h1), hrest]
    · rw [specMatchedM, specMatchedM, if_neg h1, if_neg (fun h2 => h1 (hv.mpr h2)), hrest]

theorem Market.createStocksAux_join (date wid : String) :
    ∀ (feed : List Watch) (ids : List String),
      (feed.map Watch.kod).Nodup → ids.Nodup →
      Market.createStocksAux date wid feed ids =
        (specMatchedM date wid feed ids).map
          (fun m => (m, ids.filter (fun i => feed.all (fun w => w.kod != i)))) := by
  intro feed
  induction feed with
  | nil =>
    intro ids _ _
    simp only [Market.createStocksAux, specMatchedM, Option.map_some', List.all_nil,
      List.filter_true]
  | cons w ws ih =>
    intro ids hfeed hids
    simp only [List.map_cons, List.nodup_cons, List.mem_map] at hfeed
    have hwkod : ∀ v ∈ ws, v.kod ≠ w.kod := by
      intro v hv he
      exact hfeed.1 ⟨v, hv, he⟩
    by_cases hw : w.kod ∈ ids
    · rw [Market.createStocksAux, if_pos hw, specMatchedM, if_pos hw]
      cases hnc : normalizeCount w.kolichestvo with
      | none => rfl
      | some st =>
        have hrec := ih (ids.erase w.kod) hfeed.2 (hids.erase w.kod)
        have hsame : specMatchedM date wid ws (ids.erase w.kod) = specMatchedM date wid ws ids := by
          refine specMatchedM_congr date wid ws (ids.erase w.kod) ids ?_
          intro v hv
          exact List.mem_erase_of_ne (hwkod v hv)
        have hfilter :
            (ids.erase w.kod).filter (fun i => ws.all (fun v => v.kod != i)) =
              ids.filter (fun i => (w :: ws).all (fun v => v.kod != i)) := by
          rw [hids.erase_eq_filter w.kod, List.filter_filter]
          refine List.filter_congr ?_
          intro a _
          by_cases ha : a = w.kod
          · simp [ha, List.all_cons]
          · have h1 : (a == w.kod) = false := beq_eq_false_iff_ne.mpr ha
            have h2 : (w.kod == a) = false := beq_eq_false_iff_ne.mpr (Ne.symm ha)
            simp [List.all_cons, bne, h1, h2, Bool.and_comm]
        rw [hrec, hsame, hfilter]
        cases hsm : specMatchedM date wid ws ids with
        | none => rfl
        | some m => rfl
    · rw [Market.createStocksAux, if_neg hw, specMatchedM, if_neg hw]
      have hrec := ih ids hfeed.2 hids
      have hfilter :
          ids.filter (fun i => ws.all (fun v => v.kod != i)) =
            ids.filter (fun i => (w :: ws).all (fun v => v.kod != i)) := by
        refine List.filter_congr ?_
        intro a ha
        have hne : w.kod ≠ a := fun he => hw (he ▸ ha)
        simp [List.all_cons, bne, hne]
      rw [hrec, hfilter]

/-- C1 counterexample: with a duplicated identifier in the feed, the
second feed record's identifier is still in the ORIGINAL remote list,
yet the code emits no entry for it (the first match removed the
identifier from the working list), while the claimed full outer join
emits one entry per matching feed record. -/
theorem C1_cex :
    (Seller.create_stocks [⟨"1", "5", "p"⟩, ⟨"1", "7", "p"⟩] ["1"]).map (fun p => p.1) =
      some [⟨"1", 5⟩] ∧
    specStocks [⟨"1", "5", "p"⟩, ⟨"1", "7", "p"⟩] ["1"] = some [⟨"1", 5⟩, ⟨"1", 7⟩] ∧
    some [(⟨"1", 5⟩ : StockEntry)] ≠ some [(⟨"1", 5⟩ : StockEntry), ⟨"1", 7⟩] := by
  decide

/-- C1 (amended): when the feed identifiers are pairwise distinct and the
remote identifier list has no duplicates, both create_stocks
implementations compute exactly the claimed full outer join: one entry
with the normalized quantity per feed record whose identifier is in the
remote list, in feed order, then one zero entry per remote identifier
not matched by any feed record, in remote discovery order; feed-only
records yield nothing.  First conjunct: marketplace A (seller.py);
second conjunct: marketplace B (market.py), for every timestamp and
warehouse. -/
theorem C1_full_outer_join :
    (∀ (feed : List Watch) (ids : List String),
      (feed.map Watch.kod).Nodup → ids.Nodup →
      (Seller.create_stocks feed ids).map (fun p => p.1) = specStocks feed ids) ∧
    (∀ (date wid : String) (feed : List Watch) (ids : List String),
      (feed.map Watch.kod).Nodup → ids.Nodup →
      (Market.create_stocks date feed ids wid).map (fun p => p.1) =
        specStocksM date wid feed ids) := by
  constructor
  · intro feed ids hfeed hids
    rw [Seller.create_stocks, specStocks, Seller.createStocksAux_spec feed ids hfeed hids]
    cases hsm : specMatched feed ids with
    | none => rfl
    | some m => rfl
  · intro date wid feed ids hfeed hids
    rw [Market.create_stocks, specStocksM,
      Market.createStocksAux_join date wid feed ids hfeed hids]
    cases hsm : specMatchedM date wid feed ids with
    | none => rfl
    | some m => rfl

/-- Witness for C1 on the spec's own example, for both marketplaces. -/
theorem C1_witness :
    (Seller.create_stocks [⟨"123", "10", "p"⟩] ["123", "124"]).map (fun p => p.1) =
      specStocks [⟨"123", "10", "p"⟩] ["123", "124"] ∧
    (Market.create_stocks "T0" [⟨"123", "10", "p"⟩] ["123", "124"] "w1").map (fun p => p.1) =
      specStocksM "T0" "w1" [⟨"123", "10", "p"⟩] ["123", "124"] :=
  ⟨C1_full_outer_join.1 [⟨"123", "10", "p"⟩] ["123", "124"] (by decide) (by decide),
   C1_full_outer_join.2 "T0" "w1" [⟨"123", "10", "p"⟩] ["123", "124"] (by decide) (by decide)⟩

/-! Helper lemmas for the two paginators.  The `tokF`/`curF`/`accF`
recursions shift by one page definitionally. -/

theorem Market.tokF_zero (server : String → MarketPage) (t : String) :
    Market.tokF server t 0 = t := rfl

theorem Market.tokF_succ (server : String → MarketPage) (t : String) (n : Nat) :
    Market.tokF server t (n + 1) = Market.tokF server (nextTok (server t)) n := rfl

theorem Seller.curF_zero (server : String → SellerPage) (t : String) :
    Seller.curF server t 0 = t := rfl

theorem Seller.curF_succ (server : String → SellerPage) (t : String) (n : Nat) :
    Seller.curF server t (n + 1) = Seller.curF server (server t).last_id n := rfl

theorem Seller.accF_succ (server : String → SellerPage) (t : String) (n : Nat) :
    Seller.accF server t (n + 1) =
      (server t).items.length + Seller.accF server (server t).last_id n := rfl

theorem Seller.accF_zero (server : String → SellerPage) (t : String) :
    Seller.accF server t 0 = 0 := rfl

theorem Market.getOfferIdsAux_terminates (server : String → MarketPage) :
    ∀ (N : Nat) (t : String) (acc : List MarketProduct),
      (∀ i, i < N → tokDone (server (Market.tokF server t i)).paging.nextPageToken = false) →
      tokDone (server (Market.tokF server t N)).paging.nextPageToken = true →
      ∀ fuel, N < fuel →
        Market.getOfferIdsAux server fuel t acc =
          some (acc ++ Market.pagesFrom server t N) := by
  intro N
  induction N with
  | zero =>
    intro t acc _ hdone fuel hfuel
    obtain ⟨f, rfl⟩ : ∃ f, fuel = f + 1 := ⟨fuel - 1, by omega⟩
    rw [Market.tokF_zero] at hdone
    simp only [Market.getOfferIdsAux]
    rw [if_pos hdone]
    rfl
  | succ N ihN =>
    intro t acc hfalse hdone fuel hfuel
    obtain ⟨f, rfl⟩ : ∃ f, fuel = f + 1 := ⟨fuel - 1, by omega⟩
    have h0 : tokDone (server t).paging.nextPageToken = false := hfalse 0 (by omega)
    simp only [Market.getOfferIdsAux]
    rw [if_neg (by rw [h0]; exact Bool.false_ne_true)]
    have hf2 : ∀ i, i < N →
        tokDone (server (Market.tokF server (nextTok (server t)) i)).paging.nextPageToken =
          false := by
      intro i hi
      have h1 := hfalse (i + 1) (by omega)
      rw [Market.tokF_succ] at h1
      exact h1
    have hd2 :
        tokDone (server (Market.tokF server (nextTok (server t)) N)).paging.nextPageToken =
          true := by
      rw [Market.tokF_succ] at hdone
      exact hdone
    rw [ihN (nextTok (server t)) (acc ++ (server t).offerMappingEntries) hf2 hd2 f (by omega)]
    rw [List.append_assoc]
    rfl

theorem Market.getOfferIdsAux_under_fuel (server : String → MarketPage) :
    ∀ (fuel N : Nat) (t : String) (acc : List MarketProduct),
      fuel ≤ N →
      (∀ i, i < N → tokDone (server (Market.tokF server t i)).paging.nextPageToken = false) →
      Market.getOfferIdsAux server fuel t acc = none := by
  intro fuel
  induction fuel with
  | zero => intro N t acc _ _; rfl
  | succ f ih =>
    intro N t acc hle hfalse
    obtain ⟨M, rfl⟩ : ∃ M, N = M + 1 := ⟨N - 1, by omega⟩
    have h0 : tokDone (server t).paging.nextPageToken = false := hfalse 0 (by omega)
    simp only [Market.getOfferIdsAux]
    rw [if_neg (by rw [h0]; exact Bool.false_ne_true)]
    refine ih M (nextTok (server t)) _ (by omega) ?_
    intro i hi
    have h1 := hfalse (i + 1) (by omega)
    rw [Market.tokF_succ] at h1
    exact h1

theorem Market.getOfferIdsAux_no_stop (server : String → MarketPage) :
    ∀ (fuel : Nat) (t : String) (acc : List MarketProduct),
      (∀ i, tokDone (server (Market.tokF server t i)).paging.nextPageToken = false) →
      Market.getOfferIdsAux server fuel t acc = none := by
  intro fuel
  induction fuel with
  | zero => intro t acc _; rfl
  | succ f ih =>
    intro t acc hfalse
    have h0 : tokDone (server t).paging.nextPageToken = false := hfalse 0
    simp only [Market.getOfferIdsAux]
    rw [if_neg (by rw [h0]; exact Bool.false_ne_true)]
    refine ih (nextTok (server t)) _ ?_
    intro i
    have h1 := hfalse (i + 1)
    rw [Market.tokF_succ] at h1
    exact h1

theorem Seller.getOfferIdsAux_term (server : String → SellerPage) :
    ∀ (N : Nat) (t : String) (acc : List SellerProduct),
      (∀ i, i < N →
        (server (Seller.curF server t i)).total ≠
          acc.length + Seller.accF server t (i + 1)) →
      (server (Seller.curF server t N)).total = acc.length + Seller.accF server t (N + 1) →
      ∀ fuel, N < fuel →
        Seller.getOfferIdsAux server fuel t acc =
          some (acc ++ Seller.pagesFrom server t N) := by
  intro N
  induction N with
  | zero =>
    intro t acc _ hdone fuel hfuel
    obtain ⟨f, rfl⟩ : ∃ f, fuel = f + 1 := ⟨fuel - 1, by omega⟩
    rw [Seller.curF_zero, Seller.accF_succ, Seller.accF_zero] at hdone
    have hcond : (server t).total = (acc ++ (server t).items).length := by
      rw [List.length_append]
      omega
    simp only [Seller.getOfferIdsAux]
    rw [if_pos hcond]
    rfl
  | succ N ihN =>
    intro t acc hfalse hdone fuel hfuel
    obtain ⟨f, rfl⟩ : ∃ f, fuel = f + 1 := ⟨fuel - 1, by omega⟩
    have h0 : (server t).total ≠ (acc ++ (server t).items).length := by
      have h1 := hfalse 0 (by omega)
      rw [Seller.curF_zero, Seller.accF_succ, Seller.accF_zero] at h1
      rw [List.length_append]
      omega
    simp only [Seller.getOfferIdsAux]
    rw [if_neg h0]
    have hf2 : ∀ i, i < N →
        (server (Seller.curF server (server t).last_id i)).total ≠
          (acc ++ (server t).items).length +
            Seller.accF server (server t).last_id (i + 1) := by
      intro i hi
      have h1 := hfalse (i + 1) (by omega)
      rw [Seller.curF_succ, Seller.accF_succ server t (i + 1)] at h1
      rw [List.length_append]
      omega
    have hd2 :
        (server (Seller.curF server (server t).last_id N)).total =
          (acc ++ (server t).items).length +
            Seller.accF server (server t).last_id (N + 1) := by
      rw [Seller.curF_succ, Seller.accF_succ server t (N + 1)] at hdone
      rw [List.length_append]
      omega
    rw [ihN (server t).last_id (acc ++ (server t).items) hf2 hd2 f (by omega)]
    rw [List.append_assoc]
    rfl

theorem Seller.getOfferIdsAux_below (server : String → SellerPage) :
    ∀ (fuel N : Nat) (t : String) (acc : List SellerProduct),
      fuel ≤ N →
      (∀ i, i < N →
        (server (Seller.curF server t i)).total ≠
          acc.length + Seller.accF server t (i + 1)) →
      Seller.getOfferIdsAux server fuel t acc = none := by
  intro fuel
  induction fuel with
  | zero => intro N t acc _ _; rfl
  | succ f ih =>
    intro N t acc hle hfalse
    obtain ⟨M, rfl⟩ : ∃ M, N = M + 1 := ⟨N - 1, by omega⟩
    have h0 : (server t).total ≠ (acc ++ (server t).items).length := by
      have h1 := hfalse 0 (by omega)
      rw [Seller.curF_zero, Seller.accF_succ, Seller.accF_zero] at h1
      rw [List.length_append]
      omega
    simp only [Seller.getOfferIdsAux]
    rw [if_neg h0]
    refine ih M (server t).last_id _ (by omega) ?_
    intro i hi
    have h1 := hfalse (i + 1) (by omega)
    rw [Seller.curF_succ, Seller.accF_succ server t (i + 1)] at h1
    rw [List.length_append]
    omega

theorem Seller.getOfferIdsAux_never (server : String → SellerPage) :
    ∀ (fuel : Nat) (t : String) (acc : List SellerProduct),
      (∀ i, (server (Seller.curF server t i)).total ≠
        acc.length + Seller.accF server t (i + 1)) →
      Seller.getOfferIdsAux server fuel t acc = none := by
  intro fuel
  induction fuel with
  | zero => intro t acc _; rfl
  | succ f ih =>
    intro t acc hfalse
    have h0 : (server t).total ≠ (acc ++ (server t).items).length := by
      have h1 := hfalse 0
      rw [Seller.curF_zero, Seller.accF_succ, Seller.accF_zero] at h1
      rw [List.length_append]
      omega
    simp only [Seller.getOfferIdsAux]
    rw [if_neg h0]
    refine ih (server t).last_id _ ?_
    intro i
    have h1 := hfalse (i + 1)
    rw [Seller.curF_succ, Seller.accF_succ server t (i + 1)] at h1
    rw [List.length_append]
    omega

/-- C5: for every sequence of well-formed page responses (an abstract
server function), the token-variant paginator terminates exactly at the
first page whose continuation token is empty or absent (with any larger
fuel it returns the concatenation of the identifiers of pages 0..N, and
with fuel at most N it has not yet stopped), the counter-variant
paginator terminates exactly at the first page after which the
accumulated item count equals that page's reported total, and if the
reported total is never reached the counter-variant loop runs forever
(no fuel suffices). -/
theorem C5_pagination_termination :
    (∀ (server : String → MarketPage) (N : Nat),
      (∀ i, i < N →
        tokDone (server (Market.tokF server "" i)).paging.nextPageToken = false) →
      tokDone (server (Market.tokF server "" N)).paging.nextPageToken = true →
      (∀ fuel, N < fuel →
        Market.get_offer_ids server fuel =
          some ((Market.pagesFrom server "" N).map (fun p => p.offer.shopSku))) ∧
      (∀ fuel, fuel ≤ N → Market.get_offer_ids server fuel = none)) ∧
    (∀ (server : String → MarketPage),
      (∀ i, tokDone (server (Market.tokF server "" i)).paging.nextPageToken = false) →
      ∀ fuel, Market.get_offer_ids server fuel = none) ∧
    (∀ (server : String → SellerPage) (N : Nat),
      (∀ i, i < N →
        (server (Seller.curF server "" i)).total ≠ Seller.accF server "" (i + 1)) →
      (server (Seller.curF server "" N)).total = Seller.accF server "" (N + 1) →
      (∀ fuel, N < fuel →
        Seller.get_offer_ids server fuel =
          some ((Seller.pagesFrom server "" N).map (fun p => p.offer_id))) ∧
      (∀ fuel, fuel ≤ N → Seller.get_offer_ids server fuel = none)) ∧
    (∀ (server : String → SellerPage),
      (∀ i, (server (Seller.curF server "" i)).total ≠ Seller.accF server "" (i + 1)) →
      ∀ fuel, Seller.get_offer_ids server fuel = none) := by
  refine ⟨?_, ?_, ?_, ?_⟩
  · intro server N hfalse hdone
    constructor
    · intro fuel hf
      rw [Market.get_offer_ids,
        Market.getOfferIdsAux_terminates server N "" [] hfalse hdone fuel hf]
      rw [List.nil_append]
      rfl
    · intro fuel hf
      rw [Market.get_offer_ids, Market.getOfferIdsAux_under_fuel server fuel N "" [] hf hfalse]
      rfl
  · intro server hfalse fuel
    rw [Market.get_offer_ids, Market.getOfferIdsAux_no_stop server fuel "" [] hfalse]
    rfl
  · intro server N hfalse hdone
    have hfalse2 : ∀ i, i < N →
        (server (Seller.curF server "" i)).total ≠
          ([] : List SellerProduct).length + Seller.accF server "" (i + 1) := by
      intro i hi
      have := hfalse i hi
      simpa using this
    have hdone2 : (server (Seller.curF server "" N)).total =
        ([] : List SellerProduct).length + Seller.accF server "" (N + 1) := by
      simpa using hdone
    constructor
    · intro fuel hf
      rw [Seller.get_offer_ids,
        Seller.getOfferIdsAux_term server N "" [] hfalse2 hdone2 fuel hf]
      rw [List.nil_append]
      rfl
    · intro fuel hf
      rw [Seller.get_offer_ids, Seller.getOfferIdsAux_below server fuel N "" [] hf hfalse2]
      rfl
  · intro server hfalse fuel
    have hfalse2 : ∀ i,
        (server (Seller.curF server "" i)).total ≠
          ([] : List SellerProduct).length + Seller.accF server "" (i + 1) := by
      intro i
      have := hfalse i
      simpa using this
    rw [Seller.get_offer_ids, Seller.getOfferIdsAux_never server fuel "" [] hfalse2]
    rfl

theorem accF_sserverBadW (t : String) (n : Nat) : Seller.accF sserverBadW t n = n := by
  induction n generalizing t with
  | zero => rfl
  | succ n ih =>
    rw [Seller.accF_succ, ih]
    have hlen : (sserverBadW t).items.length = 1 := rfl
    omega

/-- Witness for C5: the token variant on a concrete two-page server
(terminating and not-yet-terminated fuels), the counter variant on a
concrete two-page server, and the counter variant on a server whose
reported total is never reached. -/
theorem C5_witness :
    Market.get_offer_ids mserverW 2 =
      some ((Market.pagesFrom mserverW "" 1).map (fun p => p.offer.shopSku)) ∧
    (Market.pagesFrom mserverW "" 1).map (fun p => p.offer.shopSku) = ["a", "b"] ∧
    Market.get_offer_ids mserverW 1 = none ∧
    Seller.get_offer_ids sserverW 3 =
      some ((Seller.pagesFrom sserverW "" 1).map (fun p => p.offer_id)) ∧
    (Seller.pagesFrom sserverW "" 1).map (fun p => p.offer_id) = ["x", "y"] ∧
    Seller.get_offer_ids sserverBadW 7 = none := by
  have h1 : ∀ i, i < 1 →
      tokDone (mserverW (Market.tokF mserverW "" i)).paging.nextPageToken = false := by
    intro i hi
    have h0 : i = 0 := by omega
    subst h0
    decide
  have h2 : tokDone (mserverW (Market.tokF mserverW "" 1)).paging.nextPageToken = true := by
    decide
  have hs1 : ∀ i, i < 1 →
      (sserverW (Seller.curF sserverW "" i)).total ≠ Seller.accF sserverW "" (i + 1) := by
    intro i hi
    have h0 : i = 0 := by omega
    subst h0
    decide
  have hs2 : (sserverW (Seller.curF sserverW "" 1)).total = Seller.accF sserverW "" 2 := by
    decide
  have hbad : ∀ i,
      (sserverBadW (Seller.curF sserverBadW "" i)).total ≠ Seller.accF sserverBadW "" (i + 1) := by
    intro i
    rw [accF_sserverBadW]
    have htot : (sserverBadW (Seller.curF sserverBadW "" i)).total = 0 := rfl
    rw [htot]
    omega
  exact ⟨(C5_pagination_termination.1 mserverW 1 h1 h2).1 2 (by omega),
    by decide,
    (C5_pagination_termination.1 mserverW 1 h1 h2).2 1 (by omega),
    (C5_pagination_termination.2.2.1 sserverW 1 hs1 hs2).1 3 (by omega),
    by decide,
    C5_pagination_termination.2.2.2 sserverBadW hbad 7⟩

/-- C6: every batch the orchestration passes to a marketplace update
call respects the per-operation limit — marketplace A: at most 100 stock
entries and at most 900 price entries per call (seller.main); marketplace
B: at most 2000 stock entries and at most 500 price entries per call —
and in each batch sequence every batch except possibly the final one has
exactly the limit length. -/
theorem C6_batch_limits :
    (∀ (feed : List Watch) (ids : List String) (sb : List (List StockEntry))
        (pb : List (List SellerPrice)),
      Seller.main_model feed ids = some (sb, pb) →
      (∀ b ∈ sb, b.length ≤ 100) ∧ (∀ b ∈ sb.dropLast, b.length = 100) ∧
      (∀ b ∈ pb, b.length ≤ 900) ∧ (∀ b ∈ pb.dropLast, b.length = 900)) ∧
    (∀ (date : String) (feed : List Watch) (ids : List String) (wid : String)
        (sb : List (List MarketStock)),
      Market.stock_batches_model date feed ids wid = some sb →
      (∀ b ∈ sb, b.length ≤ 2000) ∧ (∀ b ∈ sb.dropLast, b.length = 2000)) ∧
    (∀ (feed : List Watch) (ids : List String) (pb : List (List MarketPrice)),
      Market.upload_prices_model feed ids = some pb →
      (∀ b ∈ pb, b.length ≤ 500) ∧ (∀ b ∈ pb.dropLast, b.length = 500)) := by
  refine ⟨?_, ?_, ?_⟩
  · intro feed ids sb pb h
    rw [Seller.main_model] at h
    cases hcs : Seller.create_stocks feed ids with
    | none => rw [hcs] at h; exact absurd h (by simp)
    | some pr =>
      obtain ⟨stocks, ids2⟩ := pr
      rw [hcs] at h
      dsimp only at h
      cases hsb : divide stocks (100 : Int) with
      | none => rw [hsb] at h; exact absurd h (by simp)
      | some sb2 =>
        rw [hsb] at h
        cases hpb : divide (Seller.create_prices feed ids2).1 (900 : Int) with
        | none => rw [hpb] at h; exact absurd h (by simp)
        | some pb2 =>
          rw [hpb] at h
          simp only [Option.some.injEq, Prod.mk.injEq] at h
          obtain ⟨hsbe, hpbe⟩ := h
          subst hsbe
          subst hpbe
          obtain ⟨-, hmem1, hlast1⟩ := divide_pos_spec (by omega) hsb
          obtain ⟨-, hmem2, hlast2⟩ := divide_pos_spec (by omega) hpb
          refine ⟨?_, ?_, ?_, ?_⟩
          · intro b hb; have := (hmem1 b hb).1; omega
          · intro b hb; have := hlast1 b hb; omega
          · intro b hb; have := (hmem2 b hb).1; omega
          · intro b hb; have := hlast2 b hb; omega
  · intro date feed ids wid sb h
    rw [Market.stock_batches_model] at h
    cases hcs : Market.create_stocks date feed ids wid with
    | none => rw [hcs] at h; exact absurd h (by simp)
    | some pr =>
      obtain ⟨stocks, ids2⟩ := pr
      rw [hcs] at h
      dsimp only at h
      obtain ⟨-, hmem, hlast⟩ := divide_pos_spec (show (0 : Int) < 2000 by omega) h
      constructor
      · intro b hb; have := (hmem b hb).1; omega
      · intro b hb; have := hlast b hb; omega
  · intro feed ids pb h
    rw [Market.upload_prices_model] at h
    cases hcp : Market.create_prices feed ids with
    | none => rw [hcp] at h; exact absurd h (by simp)
    | some pr =>
      obtain ⟨prices, ids2⟩ := pr
      rw [hcp] at h
      dsimp only at h
      obtain ⟨-, hmem, hlast⟩ := divide_pos_spec (show (0 : Int) < 500 by omega) h
      constructor
      · intro b hb; have := (hmem b hb).1; omega
      · intro b hb; have := hlast b hb; omega

/-- Witness for C6 on a concrete run of seller.main. -/
theorem C6_witness :
    (∀ b ∈ [[(⟨"123", 10⟩ : StockEntry), ⟨"124", 0⟩]], b.length ≤ 100) ∧
    (∀ b ∈ ([[(⟨"123", 10⟩ : StockEntry), ⟨"124", 0⟩]] :
        List (List StockEntry)).dropLast, b.length = 100) ∧
    (∀ b ∈ ([] : List (List SellerPrice)), b.length ≤ 900) ∧
    (∀ b ∈ ([] : List (List SellerPrice)).dropLast, b.length = 900) :=
  C6_batch_limits.1 [⟨"123", "10", "p"⟩] ["123", "124"]
    [[⟨"123", 10⟩, ⟨"124", 0⟩]] [] (by decide)

/-! Helper lemmas for C10: after a nodup working list is depleted by
create_stocks, no feed identifier remains in it. -/

theorem Seller.createStocksAux_no_feed_id :
    ∀ (feed : List Watch) (ids : List String) (st : List StockEntry) (fin : List String),
      ids.Nodup → Seller.createStocksAux feed ids = some (st, fin) →
      ∀ w ∈ feed, w.kod ∉ fin := by
  intro feed
  induction feed with
  | nil => intro ids st fin _ _ w hw; exact absurd hw (by simp)
  | cons w ws ih =>
    intro ids st fin hnd h v hv
    by_cases hw : w.kod ∈ ids
    · rw [Seller.createStocksAux, if_pos hw] at h
      cases hnc : normalizeCount w.kolichestvo with
      | none => rw [hnc] at h; exact absurd h (by simp)
      | some stv =>
        rw [hnc] at h
        cases hr : Seller.createStocksAux ws (ids.erase w.kod) with
        | none => rw [hr] at h; exact absurd h (by simp)
        | some pr =>
          obtain ⟨rest, fin0⟩ := pr
          rw [hr] at h
          simp only [Option.some.injEq, Prod.mk.injEq] at h
          have hfin : fin0 = fin := h.2
          subst hfin
          rcases List.mem_cons.mp hv with rfl | hv2
          · intro hmem
            have hsub := Seller.createStocksAux_subset ws (ids.erase v.kod) rest fin0 hr
            exact ((hnd.mem_erase_iff).mp (hsub hmem)).1 rfl
          · exact ih (ids.erase w.kod) rest fin0 (hnd.erase w.kod) hr v hv2
    · rw [Seller.createStocksAux, if_neg hw] at h
      rcases List.mem_cons.mp hv with rfl | hv2
      · intro hmem
        exact hw (Seller.createStocksAux_subset ws ids st fin h hmem)
      · exact ih ids st fin hnd h v hv2

theorem Seller.create_stocks_no_feed_id (feed : List Watch) (ids : List String)
    (stocks : List StockEntry) (fin : List String) (hnd : ids.Nodup)
    (h : Seller.create_stocks feed ids = some (stocks, fin)) :
    ∀ w ∈ feed, w.kod ∉ fin := by
  rw [Seller.create_stocks] at h
  cases haux : Seller.createStocksAux feed ids with
  | none => rw [haux] at h; exact absurd h (by simp)
  | some pr =>
    obtain ⟨st0, fin0⟩ := pr
    rw [haux] at h
    simp only [Option.map_some', Option.some.injEq, Prod.mk.injEq] at h
    have hfin : fin0 = fin := h.2
    subst hfin
    exact Seller.createStocksAux_no_feed_id feed ids st0 fin0 hnd haux

theorem Seller.create_prices_nil :
    ∀ (feed : List Watch) (ids : List String),
      (∀ w ∈ feed, w.kod ∉ ids) → (Seller.create_prices feed ids).1 = [] := by
  intro feed
  induction feed with
  | nil => intro ids _; rfl
  | cons w ws ih =>
    intro ids hno
    rw [Seller.create_prices, if_neg (hno w (List.mem_cons_self w ws))]
    exact ih ids (fun v hv => hno v (List.mem_cons_of_mem w hv))

/-- C10 counterexample: with a duplicated identifier in the remote list,
the stock pass removes only the first occurrence, so the price pass still
finds the feed identifier in the depleted list and seller.main dispatches
a non-empty price update batch. -/
theorem C10_cex :
    Seller.main_model [⟨"1", "2", "3"⟩] ["1", "1"] =
      some ([[⟨"1", 2⟩, ⟨"1", 0⟩]], [[⟨"UNKNOWN", "RUB", "1", "0", "3"⟩]]) ∧
    ([[(⟨"UNKNOWN", "RUB", "1", "0", "3"⟩ : SellerPrice)]] :
      List (List SellerPrice)) ≠ [] := by decide

/-- C10 (amended): when the fetched remote identifier list has no
duplicates, seller.main dispatches no price update at all — the list
passed to create_prices was depleted of every feed identifier by
create_stocks, so the price list and hence the batch sequence is empty —
and market.main issues only stock update requests: the upload_prices
coroutine it creates is never awaited, so no price request is issued. -/
theorem C10_no_price_dispatch :
    (∀ (feed : List Watch) (ids : List String) (sb : List (List StockEntry))
        (pb : List (List SellerPrice)),
      ids.Nodup → Seller.main_model feed ids = some (sb, pb) → pb = []) ∧
    (∀ (date : String) (feed : List Watch) (fbs_ids dbs_ids : List String)
        (wid_fbs wid_dbs : String) (cs : List MarketCall),
      Market.main_model date feed fbs_ids dbs_ids wid_fbs wid_dbs = some cs →
      ∀ c ∈ cs, ∃ camp b, c = MarketCall.stockUpdate camp b) := by
  constructor
  · intro feed ids sb pb hnd h
    rw [Seller.main_model] at h
    cases hcs : Seller.create_stocks feed ids with
    | none => rw [hcs] at h; exact absurd h (by simp)
    | some pr =>
      obtain ⟨stocks, ids2⟩ := pr
      rw [hcs] at h
      dsimp only at h
      have hnil : (Seller.create_prices feed ids2).1 = [] :=
        Seller.create_prices_nil feed ids2
          (Seller.create_stocks_no_feed_id feed ids stocks ids2 hnd hcs)
      rw [hnil] at h
      cases hsb : divide stocks (100 : Int) with
      | none => rw [hsb] at h; exact absurd h (by simp)
      | some sb2 =>
        rw [hsb] at h
        have hdiv : divide ([] : List SellerPrice) (900 : Int) = some [] := by decide
        rw [hdiv] at h
        simp only [Option.some.injEq, Prod.mk.injEq] at h
        exact h.2.symm
  · intro date feed fi di wf wd cs h c hc
    rw [Market.main_model] at h
    cases h1 : Market.stock_batches_model date feed fi wf with
    | none => rw [h1] at h; exact absurd h (by simp)
    | some sbF =>
      rw [h1] at h
      cases h2 : Market.stock_batches_model date feed di wd with
      | none => rw [h2] at h; exact absurd h (by simp)
      | some sbD =>
        rw [h2] at h
        simp only [Option.some.injEq] at h
        rw [← h] at hc
        rcases List.mem_append.mp hc with hcf | hcd
        · obtain ⟨b, hb, hcb⟩ := List.mem_map.mp hcf
          exact ⟨"FBS", b, hcb.symm⟩
        · obtain ⟨b, hb, hcb⟩ := List.mem_map.mp hcd
          exact ⟨"DBS", b, hcb.symm⟩

/-- Witness for C10 on concrete runs of both entry points. -/
theorem C10_witness :
    ([] : List (List SellerPrice)) = [] ∧
    ∀ c ∈ [MarketCall.stockUpdate "FBS" [⟨"1", "wf", [⟨5, "FIT", "T"⟩]⟩],
           MarketCall.stockUpdate "DBS" [⟨"1", "wd", [⟨5, "FIT", "T"⟩]⟩]],
      ∃ camp b, c = MarketCall.stockUpdate camp b :=
  ⟨C10_no_price_dispatch.1 [⟨"123", "10", "p"⟩] ["123", "124"]
      [[⟨"123", 10⟩, ⟨"124", 0⟩]] [] (by decide) (by decide),
   C10_no_price_dispatch.2 "T" [⟨"1", "5", "p"⟩] ["1"] ["1"] "wf" "wd" _ (by decide)⟩
